import Mathlib

/-!
Shallow embedding of `poolparse.py` (question-pool text extraction).

A line of input is modelled as a `List Char`.  Python's `str.strip`,
`str.lstrip`, the regex character class `\s`, and `str.islower` are modelled
over the ASCII whitespace / letter ranges (the pool text is ASCII; the
upstream PDF step already replaces the only non-ASCII whitespace, NBSP, by a
plain space before `parse_pool` runs).

The three module-level regexes `HEADER_RE`, `CHOICE_RE`, `SEP_RE` are
translated into executable matching functions.  Each translation is justified
line by line in its doc comment, including an analysis of the (very limited)
backtracking the Python regex engine can perform on these patterns.
-/

namespace PoolParse

/-- A text line, as a list of characters. -/
abbrev Str := List Char

/-- The regex class `\s` / `str.isspace` restricted to ASCII:
space, tab, newline, carriage return, vertical tab, form feed. -/
def isSpace (c : Char) : Bool :=
  c = ' ' || c = '\t' || c = '\n' || c = '\r' || c = '\x0b' || c = '\x0c'

/-- ASCII decimal digit, the regex class `\d`. -/
def isDigitC (c : Char) : Bool := '0' ≤ c && c ≤ '9'

/-- The regex class `[A-Z]`. -/
def isUpperAZ (c : Char) : Bool := 'A' ≤ c && c ≤ 'Z'

/-- The regex class `[A-D]`. -/
def isAD (c : Char) : Bool := c = 'A' || c = 'B' || c = 'C' || c = 'D'

/-- Python `s.lstrip()` (and a maximal-munch `^\s*`). -/
def lstrip (s : Str) : Str := s.dropWhile isSpace

/-- Python `s.strip()`: drop whitespace from both ends. -/
def strip (s : Str) : Str := (lstrip s).rdropWhile isSpace

/-- Python `s[:1].islower()`: true when the first character exists and is an
ASCII lowercase letter. -/
def startsLower (s : Str) : Bool :=
  match s with
  | c :: _ => 'a' ≤ c && c ≤ 'z'
  | [] => false

/-- Python `s.endswith("-")`. -/
def endsHyphen (s : Str) : Bool :=
  match s.getLast? with
  | some c => c = '-'
  | none => false

/-- `dehyphen_join` from `poolparse.py`:
if `prev` ends with a hyphen and `nxt` begins with a lowercase letter, return
`prev[:-1] + nxt.lstrip()`; otherwise return `(prev + " " + nxt.strip()).strip()`. -/
def dehyphen_join (prev nxt : Str) : Str :=
  if endsHyphen prev && startsLower nxt then
    prev.dropLast ++ lstrip nxt
  else
    strip (prev ++ ' ' :: strip nxt)

/-- The result of a successful `HEADER_RE.match`: the named groups
`subelement`, `group_index`, `group_number`, `answer`, `qstart`. -/
structure HeaderMatch where
  subelement : Char
  group_index : Char
  group_number : Str
  answer : Char
  qstart : Str
deriving DecidableEq

/-- The tail pattern `(?P<q>.*)$` applied to the whole remaining string:
`.` excludes the newline and `$` matches at the end of the string or just
before a newline that is the last character.  Hence it matches the whole
of `s` iff `s` contains no newline (capture `s`), or `s` ends in a single
final newline with none before it (capture `s` minus that newline). -/
def dotStarDollar (s : Str) : Option Str :=
  if s.any (fun c => c = '\n') then
    if s.getLast? = some '\n' && !(s.dropLast.any (fun c => c = '\n')) then
      some s.dropLast
    else
      none
  else
    some s

/-- Split at the first `']'`: the tail after it, if one exists.  This is the
deterministic residue of `\[[^\]]*\]`: the class `[^\]]` cannot cross a `']'`,
so the closing bracket can only be the first `']'`. -/
def afterRBracket : Str → Option Str
  | [] => none
  | c :: rest => if c = ']' then some rest else afterRBracket rest

/-- The tail of `HEADER_RE` after the closing `)` of the answer group:
`\s*(?:\[[^\]]*\]\s*)?(?P<qstart>.*)$`, returning the `qstart` capture.

Backtracking analysis.  The leading `\s*` is maximal-munch: giving characters
back can only prepend whitespace to the `.*$` region, and that fails whenever
the maximal position failed (an interior newline stays interior).  The
optional bracket group is attempted first (greedy `?`); it can only start at
the maximal-munch position, since `[` is not whitespace.  If it matches
structurally but the tail then fails, the engine retries without the group,
which is the `Option.orElse` below; the inner `\s*` after `\]` is
maximal-munch for the same reason as the leading one. -/
def headerTail (t : Str) : Option Str :=
  match lstrip t with
  | '[' :: rest =>
    (match afterRBracket rest with
     | some after => dotStarDollar (lstrip after)
     | none => none) <|> dotStarDollar ('[' :: rest)
  | u => dotStarDollar u

/-- `HEADER_RE.match(line)`, translated clause by clause:
`^\s*` (maximal munch: `E` is not whitespace), the code
`E(?P<subelement>\d)(?P<group_index>[A-Z])(?P<group_number>\d{2})`,
`\s*\(` (maximal munch: `(` is not whitespace), `(?P<answer>[A-D])\)`,
then the tail handled by `headerTail`. -/
def headerMatch (line : Str) : Option HeaderMatch :=
  match lstrip line with
  | 'E' :: d :: g :: n1 :: n2 :: rest =>
    if isDigitC d && isUpperAZ g && isDigitC n1 && isDigitC n2 then
      match rest.dropWhile isSpace with
      | '(' :: a :: ')' :: r3 =>
        if isAD a then
          match headerTail r3 with
          | some q => some ⟨d, g, [n1, n2], a, q⟩
          | none => none
        else none
      | _ => none
    else none
  | _ => none

/-- `CHOICE_RE.match(line)` for `^\s*([A-D])\.\s*(.*\S)?\s*$`, returning the
letter and `(cm.group(2) or "").strip()`, which is exactly how `parse_pool`
consumes the match.  The middle `\s*(.*\S)?\s*$` matches the remaining text
`t` iff `t.strip()` contains no newline (the `.*` of the group cannot cross
one, and everything outside the group must be whitespace); when it matches,
group 2 is `t.strip()` (absent when that is empty, which the `or ""` and the
outer `.strip()` make indistinguishable from the empty string). -/
def choiceMatch (line : Str) : Option (Char × Str) :=
  match lstrip line with
  | c :: '.' :: t =>
    if isAD c then
      if (strip t).any (fun x => x = '\n') then none else some (c, strip t)
    else none
  | _ => none

/-- `SEP_RE.match(line)` for `^\s*~~\s*$`: the line is exactly `~~` once
whitespace is stripped from both ends. -/
def sepMatch (line : Str) : Bool := strip line = ['~', '~']

/-- Python `xs[-1] = f(xs[-1])`: replace the last element of a list. -/
def updateLast (f : α → α) : List α → List α
  | [] => []
  | [a] => [f a]
  | a :: b :: rest => a :: updateLast f (b :: rest)

/-- Single pass of `re.sub(r"\s{2,}", " ", s)`: on seeing two adjacent
whitespace characters a single `' '` is emitted and the `true` (skipping)
mode consumes the rest of that maximal run; an isolated whitespace character
is kept as it is. -/
def collapseAux : Bool → Str → Str
  | _, [] => []
  | true, c :: rest =>
    if isSpace c then collapseAux true rest else c :: collapseAux false rest
  | false, [c] => [c]
  | false, c :: d :: rest =>
    if isSpace c then
      if isSpace d then ' ' :: collapseAux true (d :: rest)
      else c :: collapseAux false (d :: rest)
    else c :: collapseAux false (d :: rest)

/-- `re.sub(r"\s{2,}", " ", s)`: every maximal run of two or more whitespace
characters is replaced by a single space; an isolated whitespace character is
kept as it is. -/
def collapseWs (s : Str) : Str := collapseAux false s

/-- Python `" ".join(parts)`. -/
def joinSpace (parts : List Str) : Str := List.intercalate [' '] parts

/-- The local `clean` of `parse_pool`:
`" ".join(p for p in parts if p).strip()` followed by the whitespace
collapse `re.sub(r"\s{2,}", " ", s)`. -/
def clean (parts : List Str) : Str :=
  collapseWs (strip (joinSpace (parts.filter (fun p => !p.isEmpty))))

/-- The initial `q_parts`: `[qstart.strip()]` when that is non-empty, else `[]`. -/
def initQ (qstart : Str) : List Str :=
  if (strip qstart).isEmpty then [] else [strip qstart]

/-- The question-text loop of `parse_pool` (lines 98–107): consume lines until
a separator, header or choice line (left in place) or the end of input; a
non-blank line is `dehyphen_join`-ed onto the last of `q_parts` (appended when
`q_parts` is empty); blank lines are skipped.  Returns the final `q_parts`
and the unconsumed lines. -/
def qloop (qps : List Str) : List Str → List Str × List Str
  | [] => (qps, [])
  | ln :: rest =>
    if sepMatch ln || (headerMatch ln).isSome || (choiceMatch ln).isSome then
      (qps, ln :: rest)
    else
      qloop
        (if (strip ln).isEmpty then qps
         else if qps.isEmpty then [strip ln]
         else updateLast (fun p => dehyphen_join p (strip ln)) qps)
        rest

/-- The per-letter choice accumulators `choice_bufs = {"A": [], "B": [], "C": [], "D": []}`. -/
structure ChoiceBufs where
  a : List Str
  b : List Str
  c : List Str
  d : List Str
deriving DecidableEq

/-- `choice_bufs[letter]`. -/
def ChoiceBufs.get (bufs : ChoiceBufs) (letter : Char) : List Str :=
  if letter = 'A' then bufs.a
  else if letter = 'B' then bufs.b
  else if letter = 'C' then bufs.c
  else bufs.d

/-- `choice_bufs[letter] = v`. -/
def ChoiceBufs.set (bufs : ChoiceBufs) (letter : Char) (v : List Str) : ChoiceBufs :=
  if letter = 'A' then { bufs with a := v }
  else if letter = 'B' then { bufs with b := v }
  else if letter = 'C' then { bufs with c := v }
  else { bufs with d := v }

/-- `{"A": [], "B": [], "C": [], "D": []}`. -/
def initBufs : ChoiceBufs := ⟨[], [], [], []⟩

/-- One non-boundary line of the choice-collection loop (lines 120–140): a
choice line switches `current` to its letter and appends its non-empty
remainder to that letter's buffer; otherwise, with a current letter set, a
non-blank line is `dehyphen_join`-ed onto the last entry of that letter's
buffer (appended when the buffer is empty); with no current letter the line
is skipped.  Returns the updated buffers and current letter. -/
def cstep (bufs : ChoiceBufs) (current : Option Char) (ln : Str) :
    ChoiceBufs × Option Char :=
  match choiceMatch ln with
  | some (letter, firstText) =>
    (if firstText.isEmpty then bufs
     else bufs.set letter (bufs.get letter ++ [firstText]), some letter)
  | none =>
    match current with
    | some letter =>
      (if (strip ln).isEmpty then bufs
       else if (bufs.get letter).isEmpty then bufs.set letter [strip ln]
       else bufs.set letter
         (updateLast (fun p => dehyphen_join p (strip ln)) (bufs.get letter)),
       current)
    | none => (bufs, current)

/-- The choice-collection loop of `parse_pool` (lines 115–140): consume lines
until a separator or header (left in place) or end of input, folding `cstep`
over the consumed lines.  Returns the buffers and the unconsumed lines. -/
def cloop (bufs : ChoiceBufs) (current : Option Char) :
    List Str → ChoiceBufs × List Str
  | [] => (bufs, [])
  | ln :: rest =>
    if sepMatch ln || (headerMatch ln).isSome then (bufs, ln :: rest)
    else cloop (cstep bufs current ln).1 (cstep bufs current ln).2 rest

/-- Lines 154–156 of `parse_pool`: consume one separator line if present. -/
def dropSep : List Str → List Str
  | [] => []
  | l :: t => if sepMatch l then t else l :: t

/-- An output record, with the fields of the emitted dict (the Python key
`"class"` is the field `cls`). -/
structure QuestionRecord where
  id : Nat
  question : Str
  cls : Str
  subelement : Char
  group_index : Char
  group_number : Str
  answer : Char
  answer_a : Str
  answer_b : Str
  answer_c : Str
  answer_d : Str
deriving DecidableEq

/-- The record as sealed by `parse_pool`: the header groups fill the
classification fields, `question` is `" ".join(q_parts).strip()` (line 109),
and each answer field is `clean` of its buffer (lines 147–150). -/
def mkRecord (qid : Nat) (fc : Str) (h : HeaderMatch) (qps : List Str)
    (bufs : ChoiceBufs) : QuestionRecord where
  id := qid
  question := strip (joinSpace qps)
  cls := fc
  subelement := h.subelement
  group_index := h.group_index
  group_number := h.group_number
  answer := h.answer
  answer_a := clean bufs.a
  answer_b := clean bufs.b
  answer_c := clean bufs.c
  answer_d := clean bufs.d

/-- Counting header lines: `headerP` is the classification used by the outer
scan to decide whether a line opens a record. -/
def headerP (l : Str) : Bool := (headerMatch l).isSome

/-- The outer scanning loop of `parse_pool`: skip non-header lines; on a
header, run the question loop, then the choice loop, seal the record, consume
a following separator if present, and continue after it with the next id. -/
def go (fc : Str) (qid : Nat) (ls : List Str) : List QuestionRecord :=
  match ls with
  | [] => []
  | line :: rest =>
    match headerMatch line with
    | none => go fc qid rest
    | some h =>
      mkRecord qid fc h (qloop (initQ h.qstart) rest).1
          (cloop initBufs none (qloop (initQ h.qstart) rest).2).1 ::
        go fc (qid + 1)
          (dropSep (cloop initBufs none (qloop (initQ h.qstart) rest).2).2)
termination_by ls.length
decreasing_by
  · simp
  · have hq : ∀ (ls2 qps : List Str), (qloop qps ls2).2.length ≤ ls2.length := by
      intro ls2
      induction ls2 with
      | nil => intro qps; exact Nat.le_refl _
      | cons ln rest2 ih =>
        intro qps
        rw [qloop.eq_def]
        by_cases hb :
            (sepMatch ln || (headerMatch ln).isSome || (choiceMatch ln).isSome) = true
        · simp [hb]
        · simp only [hb, Bool.false_eq_true, if_false]
          exact Nat.le_succ_of_le (ih _)
    have hcc : ∀ (bufs : ChoiceBufs) (current : Option Char) (ln : Str) (rest2 : List Str),
        cloop bufs current (ln :: rest2) =
          if sepMatch ln || (headerMatch ln).isSome then (bufs, ln :: rest2)
          else cloop (cstep bufs current ln).1 (cstep bufs current ln).2 rest2 :=
      fun _ _ _ _ => rfl
    have hc : ∀ (ls2 : List Str) (bufs : ChoiceBufs) (current : Option Char),
        (cloop bufs current ls2).2.length ≤ ls2.length := by
      intro ls2
      induction ls2 with
      | nil => intro bufs current; exact Nat.le_refl _
      | cons ln rest2 ih =>
        intro bufs current
        rw [hcc]
        by_cases hb : (sepMatch ln || (headerMatch ln).isSome) = true
        · simp [hb]
        · simp only [hb, Bool.false_eq_true, if_false]
          exact Nat.le_succ_of_le (ih _ _)
    have hd : ∀ ls2 : List Str, (dropSep ls2).length ≤ ls2.length := by
      intro ls2
      rcases ls2 with _ | ⟨l, t⟩
      · exact Nat.le_refl _
      · by_cases hs : sepMatch l = true
        · simp [dropSep, hs]
        · simp [dropSep, hs]
    exact Nat.lt_succ_of_le (le_trans (hd _) (le_trans (hc _ _ _) (hq _ _)))

/-- `parse_pool(lines, force_class)`: scan from the first line with id 1. -/
def parse_pool (lines : List Str) (force_class : Str) : List QuestionRecord :=
  go force_class 1 lines

/-- The outer scanning loop with an explicit bound on the number of loop
iterations: `goF fc fuel qid ls` runs at most `fuel` iterations and returns
`none` if that bound is hit.  Each iteration consumes at least the line at
the cursor, so `ls.length + 1` iterations always suffice (`goF_eq_go`): that
is the termination argument of the single forward pass made explicit. -/
def goF (fc : Str) : Nat → Nat → List Str → Option (List QuestionRecord)
  | 0, _, _ => none
  | _ + 1, _, [] => some []
  | fuel + 1, qid, line :: rest =>
    match headerMatch line with
    | none => goF fc fuel qid rest
    | some h =>
      match goF fc fuel (qid + 1)
          (dropSep (cloop initBufs none (qloop (initQ h.qstart) rest).2).2) with
      | none => none
      | some out =>
        some (mkRecord qid fc h (qloop (initQ h.qstart) rest).1
            (cloop initBufs none (qloop (initQ h.qstart) rest).2).1 :: out)

/-- Modelled from the spec (Text Joiner, otherwise-branch): "return
`accumulatedFragment + " " + trim(newFragment)`".  Stated only to compare the
spec's wording of the space-join against `dehyphen_join`. -/
def joinSpecOtherwise (prev nxt : Str) : Str := prev ++ ' ' :: strip nxt

/-- Every character of `s` satisfies `P`. -/
def charsOK (P : Char → Prop) (s : Str) : Prop := ∀ c ∈ s, P c

/-- Every character of every fragment of all four choice buffers satisfies `P`. -/
def bufsOK (P : Char → Prop) (bufs : ChoiceBufs) : Prop :=
  (∀ p ∈ bufs.a, charsOK P p) ∧ (∀ p ∈ bufs.b, charsOK P p) ∧
    (∀ p ∈ bufs.c, charsOK P p) ∧ (∀ p ∈ bufs.d, charsOK P p)

theorem qloop_snd_length (qps : List Str) (ls : List Str) :
    (qloop qps ls).2.length ≤ ls.length := by
  induction ls generalizing qps with
  | nil => simp [qloop]
  | cons ln rest ih =>
    rw [qloop.eq_def]
    by_cases hb : (sepMatch ln || (headerMatch ln).isSome || (choiceMatch ln).isSome) = true
    · simp [hb]
    · simp only [hb, Bool.false_eq_true, if_false]
      exact Nat.le_succ_of_le (ih _)

theorem cloop_cons (bufs : ChoiceBufs) (current : Option Char) (ln : Str)
    (rest : List Str) :
    cloop bufs current (ln :: rest) =
      if sepMatch ln || (headerMatch ln).isSome then (bufs, ln :: rest)
      else cloop (cstep bufs current ln).1 (cstep bufs current ln).2 rest := rfl

theorem cloop_snd_length (bufs : ChoiceBufs) (current : Option Char) (ls : List Str) :
    (cloop bufs current ls).2.length ≤ ls.length := by
  induction ls generalizing bufs current with
  | nil => simp [cloop]
  | cons ln rest ih =>
    rw [cloop_cons]
    by_cases hb : (sepMatch ln || (headerMatch ln).isSome) = true
    · simp [hb]
    · simp only [hb, Bool.false_eq_true, if_false]
      exact Nat.le_succ_of_le (ih _ _)

theorem dropSep_length (ls : List Str) : (dropSep ls).length ≤ ls.length := by
  match ls with
  | [] => simp [dropSep]
  | l :: t =>
    by_cases hs : sepMatch l
    · simp [dropSep, hs]
    · simp [dropSep, hs]

theorem go_nil (fc : Str) (qid : Nat) : go fc qid [] = [] := by
  rw [go]

theorem go_cons_none (fc : Str) (qid : Nat) (line : Str) (rest : List Str)
    (h : headerMatch line = none) :
    go fc qid (line :: rest) = go fc qid rest := by
  rw [go, h]

theorem go_cons_some (fc : Str) (qid : Nat) (line : Str) (rest : List Str)
    (hm : HeaderMatch) (h : headerMatch line = some hm) :
    go fc qid (line :: rest) =
      mkRecord qid fc hm (qloop (initQ hm.qstart) rest).1
          (cloop initBufs none (qloop (initQ hm.qstart) rest).2).1 ::
        go fc (qid + 1)
          (dropSep (cloop initBufs none (qloop (initQ hm.qstart) rest).2).2) := by
  rw [go, h]

theorem goF_eq_go (fc : Str) (fuel : Nat) :
    ∀ (qid : Nat) (ls : List Str), ls.length < fuel →
      goF fc fuel qid ls = some (go fc qid ls) := by
  induction fuel with
  | zero => intro qid ls h; omega
  | succ fuel ih =>
    intro qid ls h
    match ls with
    | [] => rw [go_nil, goF]
    | line :: rest =>
      rcases hm : headerMatch line with _ | hd
      · rw [goF, hm, go_cons_none fc qid line rest hm]
        exact ih qid rest (by simpa using Nat.lt_of_succ_lt_succ h)
      · have hlen :
            (dropSep (cloop initBufs none (qloop (initQ hd.qstart) rest).2).2).length
              < fuel := by
          have := le_trans
            (dropSep_length (cloop initBufs none (qloop (initQ hd.qstart) rest).2).2)
            (le_trans (cloop_snd_length initBufs none (qloop (initQ hd.qstart) rest).2)
              (qloop_snd_length (initQ hd.qstart) rest))
          simp only [List.length_cons] at h
          omega
        have hg := ih (qid + 1) _ hlen
        simp only [goF, hm, hg, go_cons_some fc qid line rest hd hm]

/-- Evaluation bridge: the fuel version with `lines.length + 1` iterations
computes `parse_pool`; used to evaluate `parse_pool` on concrete inputs. -/
theorem parse_pool_eval (lines : List Str) (fc : Str) (out : List QuestionRecord)
    (h : goF fc (lines.length + 1) 1 lines = some out) :
    parse_pool lines fc = out := by
  have := goF_eq_go fc (lines.length + 1) 1 lines (Nat.lt_succ_self _)
  rw [h] at this
  exact (Option.some_injective _ this).symm

theorem qloop_nil (qps : List Str) : qloop qps [] = (qps, []) := rfl

theorem qloop_cons (qps : List Str) (ln : Str) (rest : List Str) :
    qloop qps (ln :: rest) =
      if sepMatch ln || (headerMatch ln).isSome || (choiceMatch ln).isSome then
        (qps, ln :: rest)
      else
        qloop
          (if (strip ln).isEmpty then qps
           else if qps.isEmpty then [strip ln]
           else updateLast (fun p => dehyphen_join p (strip ln)) qps)
          rest := rfl

theorem cloop_nil (bufs : ChoiceBufs) (current : Option Char) :
    cloop bufs current [] = (bufs, []) := rfl

theorem strip_pre_lstrip (l : Str) : strip l <+: lstrip l :=
  List.rdropWhile_prefix isSpace (lstrip l)

theorem lstrip_of_strip_cons (l : Str) (c : Char) (cs : Str)
    (h : strip l = c :: cs) : ∃ t, lstrip l = c :: t := by
  obtain ⟨u, hu⟩ := strip_pre_lstrip l
  rw [h] at hu
  exact ⟨cs ++ u, by simpa using hu.symm⟩

/-- A separator line is never a header line. -/
theorem sep_not_header (l : Str) (h : sepMatch l = true) : headerMatch l = none := by
  have hs : strip l = ['~', '~'] := by simpa [sepMatch] using h
  obtain ⟨t, ht⟩ := lstrip_of_strip_cons l '~' ['~'] hs
  unfold headerMatch
  rw [ht]
  rfl

/-- A header line is never a separator line. -/
theorem header_not_sep (l : Str) (hm : HeaderMatch)
    (h : headerMatch l = some hm) : sepMatch l = false := by
  unfold headerMatch at h
  split at h
  case h_2 => exact absurd h (by simp)
  case h_1 d g n1 n2 rest heq =>
    have hpre := strip_pre_lstrip l
    rw [heq] at hpre
    obtain ⟨u, hu⟩ := hpre
    match hsl : strip l with
    | [] =>
      have hnil' : List.rdropWhile isSpace ('E' :: d :: g :: n1 :: n2 :: rest) = [] := by
        have h0 : strip l = List.rdropWhile isSpace (lstrip l) := rfl
        rw [hsl] at h0
        rw [← heq]
        exact h0.symm
      have hE := (List.rdropWhile_eq_nil_iff.mp hnil') 'E' (by simp)
      simp [isSpace] at hE
    | c :: cs =>
      rw [hsl, List.cons_append] at hu
      injection hu with h1 h2
      simp [sepMatch, hsl, h1]

theorem qloop_countP_header (qps : List Str) (ls : List Str) :
    (qloop qps ls).2.countP headerP = ls.countP headerP := by
  induction ls generalizing qps with
  | nil => simp [qloop]
  | cons ln rest ih =>
    rw [qloop.eq_def]
    by_cases hb : (sepMatch ln || (headerMatch ln).isSome || (choiceMatch ln).isSome) = true
    · simp [hb]
    · simp only [hb, Bool.false_eq_true, if_false]
      have hnh : headerP ln = false := by
        simp only [Bool.or_eq_true] at hb
        push_neg at hb
        simpa [headerP] using hb.1.2
      rw [ih, List.countP_cons_of_neg _ _ (by simp [hnh])]

theorem cloop_countP_header (bufs : ChoiceBufs) (current : Option Char) (ls : List Str) :
    (cloop bufs current ls).2.countP headerP = ls.countP headerP := by
  induction ls generalizing bufs current with
  | nil => simp [cloop]
  | cons ln rest ih =>
    rw [cloop_cons]
    by_cases hb : (sepMatch ln || (headerMatch ln).isSome) = true
    · simp [hb]
    · have hnh : headerP ln = false := by
        simp only [Bool.or_eq_true] at hb
        push_neg at hb
        simpa [headerP] using hb.2
      simp only [hb, Bool.false_eq_true, if_false]
      rw [ih, List.countP_cons_of_neg _ _ (by simp [hnh])]

theorem dropSep_countP_header (ls : List Str) :
    (dropSep ls).countP headerP = ls.countP headerP := by
  match ls with
  | [] => simp [dropSep]
  | l :: t =>
    by_cases hs : sepMatch l = true
    · have := sep_not_header l hs
      simp [dropSep, hs, List.countP_cons_of_neg, headerP, this]
    · simp [dropSep, hs]

/-- The records emitted by the outer scan carry the ids `qid, qid+1, …`, one
per header line remaining in the input. -/
theorem go_map_id (fc : Str) (qid : Nat) (ls : List Str) :
    (go fc qid ls).map (fun r => r.id) =
      List.range' qid (ls.countP headerP) := by
  induction qid, ls using go.induct fc with
  | case1 qid => simp [go_nil]
  | case2 qid ln rest hm ih =>
    rw [go_cons_none fc qid ln rest hm, ih,
      List.countP_cons_of_neg _ _ (by simp [headerP, hm])]
  | case3 qid ln rest h hm ih =>
    rw [go_cons_some fc qid ln rest h hm]
    have hcount :
        (dropSep (cloop initBufs none (qloop (initQ h.qstart) rest).2).2).countP headerP
          = rest.countP headerP := by
      rw [dropSep_countP_header, cloop_countP_header, qloop_countP_header]
    have hpos : headerP ln = true := by simp [headerP, hm]
    rw [List.countP_cons_of_pos _ _ (by simp [hpos])]
    simp only [List.map_cons, ih, hcount, mkRecord]
    rw [List.range'_succ]

theorem qloop_append_sep (sep : Str) (hs : sepMatch sep = true)
    (qps : List Str) (ls : List Str) :
    qloop qps (ls ++ [sep]) = ((qloop qps ls).1, (qloop qps ls).2 ++ [sep]) := by
  induction ls generalizing qps with
  | nil => simp [qloop_nil, qloop_cons, hs]
  | cons ln rest ih =>
    rw [List.cons_append, qloop_cons, qloop_cons]
    by_cases hb : (sepMatch ln || (headerMatch ln).isSome || (choiceMatch ln).isSome) = true
    · simp [hb]
    · simp only [hb, Bool.false_eq_true, if_false]
      exact ih _

theorem cloop_append_sep (sep : Str) (hs : sepMatch sep = true)
    (bufs : ChoiceBufs) (current : Option Char) (ls : List Str) :
    cloop bufs current (ls ++ [sep]) =
      ((cloop bufs current ls).1, (cloop bufs current ls).2 ++ [sep]) := by
  induction ls generalizing bufs current with
  | nil => simp [cloop_nil, cloop_cons, hs]
  | cons ln rest ih =>
    rw [List.cons_append, cloop_cons, cloop_cons]
    by_cases hb : (sepMatch ln || (headerMatch ln).isSome) = true
    · simp [hb]
    · simp only [hb, Bool.false_eq_true, if_false]
      exact ih _ _

theorem dropSep_append_sep (sep : Str) (l2 : Str) (t2 : List Str) :
    dropSep ((l2 :: t2) ++ [sep]) = dropSep (l2 :: t2) ++ [sep] := by
  by_cases h2 : sepMatch l2 = true
  · simp [dropSep, h2]
  · simp [dropSep, h2]

/-- Appending a separator line to any input does not change the parse: the
end-of-input sealing behaves exactly like a separator. -/
theorem go_append_sep (fc : Str) (sep : Str) (hs : sepMatch sep = true)
    (qid : Nat) (ls : List Str) : go fc qid (ls ++ [sep]) = go fc qid ls := by
  induction qid, ls using go.induct fc with
  | case1 qid =>
    rw [List.nil_append, go_cons_none fc qid sep [] (sep_not_header sep hs), go_nil]
  | case2 qid ln rest hm ih =>
    rw [List.cons_append, go_cons_none fc qid ln _ hm,
      go_cons_none fc qid ln rest hm]
    exact ih
  | case3 qid ln rest h hm ih =>
    rw [List.cons_append, go_cons_some fc qid ln _ h hm,
      go_cons_some fc qid ln rest h hm, qloop_append_sep sep hs,
      cloop_append_sep sep hs]
    rcases hr3 : (cloop initBufs none (qloop (initQ h.qstart) rest).2).2 with _ | ⟨l2, t2⟩
    · dsimp only
      simp [dropSep, hs]
    · dsimp only
      rw [hr3] at ih
      rw [dropSep_append_sep sep l2 t2, ih]

/-- C1: for every input line sequence, the records returned by `parse_pool`
carry `id` fields that are exactly `1..N` in strictly increasing order with
no gaps or duplicates, where `N` is the number of lines matching the header
pattern (each of which opens a record); ids equal emission order. -/
theorem claim1_ids_are_range (lines : List Str) (force_class : Str) :
    (parse_pool lines force_class).map (fun r => r.id) =
      List.range' 1 (lines.countP headerP) :=
  go_map_id force_class 1 lines

/-- C10: `parse_pool` terminates on every finite list of strings: the outer
scanning loop, run with the explicit iteration bound `lines.length + 1`,
always completes within that bound, because every iteration strictly advances
the cursor; the single forward pass is a total function of its input. -/
theorem claim10_single_pass_terminates (lines : List Str) (force_class : Str) :
    goF force_class (lines.length + 1) 1 lines =
      some (parse_pool lines force_class) :=
  goF_eq_go force_class (lines.length + 1) 1 lines (Nat.lt_succ_self _)

/-- C3 counterexample: the header pattern of the source does not tolerate
internal whitespace around the parenthesized answer letter; the line
`E1A01 ( D ) text` is not classified as a Header at all. -/
theorem claim3_counterexample :
    headerMatch "E1A01 ( D ) text".toList = none := by decide

/-- C3 (amended): header classification requires the parenthesized answer
letter with no internal whitespace: the strict form `E1A01 (D) text` is
classified as a Header with correctAnswer `D` and question remainder `text`,
while the whitespace-padded form is rejected (see the counterexample). -/
theorem claim3_strict_header :
    headerMatch "E1A01 (D) text".toList =
      some ⟨'1', 'A', ['0', '1'], 'D', "text".toList⟩ := by decide

/-- C5: if the input ends while a record is open, that record is sealed and
emitted exactly as though a separator line had followed: appending a
separator line to any input leaves `parse_pool`'s output unchanged, so no
record is ever lost at end of input. -/
theorem claim5_end_of_input_seals (lines : List Str) (force_class sep : Str)
    (hs : sepMatch sep = true) :
    parse_pool (lines ++ [sep]) force_class = parse_pool lines force_class :=
  go_append_sep force_class sep hs 1 lines

/-- Witness for C5: at a concrete input, a trailing open record parses the
same with and without a terminating separator line. -/
theorem claim5_witness :
    sepMatch "~~".toList = true ∧
      parse_pool (["E1A01 (A) q?".toList] ++ ["~~".toList]) ['E'] =
        parse_pool ["E1A01 (A) q?".toList] ['E'] :=
  ⟨by decide,
    claim5_end_of_input_seals ["E1A01 (A) q?".toList] ['E'] "~~".toList (by decide)⟩

/-- C6: a header line met while a record is open seals the current record
as-is and is reprocessed as the start of a new record, never consumed as
text: two consecutive header lines with no separator between them yield two
records, the first sealed with only its own header remainder and empty
choices. -/
theorem claim6_header_reprocessed (force_class l1 l2 : Str) (h1 h2 : HeaderMatch)
    (e1 : headerMatch l1 = some h1) (e2 : headerMatch l2 = some h2) :
    parse_pool [l1, l2] force_class =
      [mkRecord 1 force_class h1 (initQ h1.qstart) initBufs,
       mkRecord 2 force_class h2 (initQ h2.qstart) initBufs] := by
  unfold parse_pool
  rw [go_cons_some force_class 1 l1 [l2] h1 e1]
  have hq : qloop (initQ h1.qstart) [l2] = (initQ h1.qstart, [l2]) := by
    rw [qloop_cons]
    simp [e2]
  have hc : cloop initBufs none [l2] = (initBufs, [l2]) := by
    rw [cloop_cons]
    simp [e2]
  rw [hq]
  dsimp only
  rw [hc]
  dsimp only
  have hd : dropSep [l2] = [l2] := by
    simp [dropSep, header_not_sep l2 h2 e2]
  rw [hd, go_cons_some force_class 2 l2 [] h2 e2, qloop_nil]
  dsimp only
  rw [cloop_nil]
  dsimp only
  rw [show dropSep [] = [] from rfl, go_nil]

/-- Witness for C6: two consecutive concrete header lines produce exactly two
records. -/
theorem claim6_witness :
    parse_pool ["E1A01 (A) first".toList, "E2B03 (C) second".toList] ['E'] =
      [mkRecord 1 ['E'] ⟨'1', 'A', ['0', '1'], 'A', "first".toList⟩
          (initQ "first".toList) initBufs,
       mkRecord 2 ['E'] ⟨'2', 'B', ['0', '3'], 'C', "second".toList⟩
          (initQ "second".toList) initBufs] :=
  claim6_header_reprocessed ['E'] "E1A01 (A) first".toList "E2B03 (C) second".toList
    ⟨'1', 'A', ['0', '1'], 'A', "first".toList⟩
    ⟨'2', 'B', ['0', '3'], 'C', "second".toList⟩ (by decide) (by decide)

/-- C4 counterexample: when the same letter's choice marker appears twice in
one block, the text gathered under the first occurrence is not discarded:
`A. one` followed by `A. two` seals with `answer_a = "one two"`, not `"two"`. -/
theorem claim4_counterexample :
    (parse_pool ["E1A01 (A)".toList, "A. one".toList, "A. two".toList,
        "~~".toList] ['E']).map (fun r => r.answer_a) ≠ ["two".toList] := by
  have h := parse_pool_eval
    ["E1A01 (A)".toList, "A. one".toList, "A. two".toList, "~~".toList] ['E']
    [⟨1, [], ['E'], '1', 'A', ['0', '1'], 'A', "one two".toList, [], [], []⟩]
    (by decide)
  rw [h]
  decide

/-- C4 (amended): a repeated Choice line for the same letter appends its
remainder as a new fragment to that letter's existing accumulator; the text
gathered under the first occurrence is kept, and sealing space-joins the
fragments, so `A. one` then `A. two` yields `answer_a = "one two"`. -/
theorem claim4_repeated_choice_appends :
    parse_pool ["E1A01 (A)".toList, "A. one".toList, "A. two".toList,
        "~~".toList] ['E'] =
      [⟨1, [], ['E'], '1', 'A', ['0', '1'], 'A', "one two".toList, [], [], []⟩] :=
  parse_pool_eval _ _ _ (by decide)

/-- C2 counterexample: the whitespace-collapse normalization is not applied
to the question accumulator at sealing: a header remainder with an internal
double space survives into `question` uncollapsed. -/
theorem claim2_counterexample :
    (parse_pool ["E1A01 (A) foo  bar".toList, "~~".toList] ['E']).map
        (fun r => r.question) = ["foo  bar".toList] ∧
      collapseWs "foo  bar".toList ≠ "foo  bar".toList := by
  have h := parse_pool_eval ["E1A01 (A) foo  bar".toList, "~~".toList] ['E']
    [⟨1, "foo  bar".toList, ['E'], '1', 'A', ['0', '1'], 'A', [], [], [], []⟩]
    (by decide)
  refine ⟨?_, by decide⟩
  rw [h]
  decide

/-- C8 counterexample: for arbitrary input strings the no-line-break
invariant fails: a plain continuation line containing an embedded newline
flows into `question` unchanged. -/
theorem claim8_counterexample :
    (parse_pool ["E1A01 (A)".toList, "x\ny".toList, "~~".toList] ['E']).map
        (fun r => r.question) = ["x\ny".toList] ∧ '\n' ∈ "x\ny".toList := by
  have h := parse_pool_eval ["E1A01 (A)".toList, "x\ny".toList, "~~".toList] ['E']
    [⟨1, "x\ny".toList, ['E'], '1', 'A', ['0', '1'], 'A', [], [], [], []⟩]
    (by decide)
  refine ⟨?_, by decide⟩
  rw [h]
  decide

theorem qloop_skips_plain (s : Str) (rest : List Str) (hs : sepMatch s = true) :
    ∀ (qls : List Str) (qps : List Str),
      (∀ q ∈ qls,
        (sepMatch q || (headerMatch q).isSome || (choiceMatch q).isSome) = false) →
      (qloop qps (qls ++ s :: rest)).2 = s :: rest := by
  intro qls
  induction qls with
  | nil =>
    intro qps _
    rw [List.nil_append, qloop_cons]
    simp [hs]
  | cons q qt ih =>
    intro qps h
    rw [List.cons_append, qloop_cons]
    have hq := h q (by simp)
    simp only [hq, Bool.false_eq_true, if_false]
    exact ih _ (fun x hx => h x (by simp [hx]))

/-- C7: a block consisting of a header, optional plain (non-header,
non-choice, non-separator) lines, then directly a separator, still produces
an emitted record whose four choice-text fields are all the empty string. -/
theorem claim7_no_choices_empty_fields (force_class l s : Str)
    (qls rest : List Str) (h : HeaderMatch) (e : headerMatch l = some h)
    (hs : sepMatch s = true)
    (hq : ∀ q ∈ qls,
      (sepMatch q || (headerMatch q).isSome || (choiceMatch q).isSome) = false) :
    ((parse_pool (l :: (qls ++ s :: rest)) force_class).map
        (fun r => (r.answer_a, r.answer_b, r.answer_c, r.answer_d))).head? =
      some ([], [], [], []) := by
  unfold parse_pool
  rw [go_cons_some force_class 1 l _ h e]
  have h2 := qloop_skips_plain s rest hs qls (initQ h.qstart) hq
  rw [h2]
  have h3 : cloop initBufs none (s :: rest) = (initBufs, s :: rest) := by
    rw [cloop_cons]
    simp [hs]
  rw [h3]
  simp only [List.map_cons, List.head?_cons]
  rfl

/-- Witness for C7: a concrete header-then-text-then-separator block emits a
record with all four choice fields empty. -/
theorem claim7_witness :
    ((parse_pool ["E1A01 (B) stem".toList, "more stem".toList, "~~".toList]
        ['E']).map (fun r => (r.answer_a, r.answer_b, r.answer_c, r.answer_d))).head? =
      some ([], [], [], []) :=
  claim7_no_choices_empty_fields ['E'] "E1A01 (B) stem".toList "~~".toList
    ["more stem".toList] [] ⟨'1', 'A', ['0', '1'], 'B', "stem".toList⟩
    (by decide) (by decide) (by decide)

theorem collapseAux_false_cons (c : Char) (ts : Str) (hc : isSpace c = false) :
    collapseAux false (c :: ts) = c :: collapseAux false ts := by
  rcases ts with _ | ⟨d, rest⟩
  · rfl
  · simp [collapseAux, hc]

theorem collapseAux_true_eq (s : Str) :
    collapseAux true s = collapseAux false (s.dropWhile isSpace) := by
  induction s with
  | nil => rfl
  | cons c rest ih =>
    by_cases hc : isSpace c = true
    · rw [List.dropWhile_cons_of_pos hc, ← ih]
      simp [collapseAux, hc]
    · rw [List.dropWhile_cons_of_neg hc,
        collapseAux_false_cons c rest (by simpa using hc)]
      simp [collapseAux, hc]

/-- The output of the whitespace collapse never has two adjacent whitespace
characters. -/
theorem collapseAux_chain (b : Bool) (s : Str) :
    List.Chain' (fun x y => ¬(isSpace x = true ∧ isSpace y = true))
      (collapseAux b s) := by
  induction b, s using collapseAux.induct with
  | case1 b => simp [collapseAux]
  | case2 c rest hc ih => simpa [collapseAux, hc] using ih
  | case3 c rest hc ih =>
    rw [show collapseAux true (c :: rest) = c :: collapseAux false rest by
      simp [collapseAux, hc]]
    rw [List.chain'_cons']
    exact ⟨fun y _ hp => hc hp.1, ih⟩
  | case4 c => simp [collapseAux]
  | case5 c d rest hc hd ih =>
    rw [show collapseAux false (c :: d :: rest) = ' ' :: collapseAux true (d :: rest) by
      simp [collapseAux, hc, hd]]
    rw [List.chain'_cons']
    refine ⟨fun y hy hp => ?_, ih⟩
    rw [collapseAux_true_eq] at hy
    rcases hdw : (d :: rest).dropWhile isSpace with _ | ⟨t, ts⟩
    · rw [hdw] at hy
      simp [collapseAux] at hy
    · have ht := List.head?_dropWhile_not isSpace (d :: rest)
      rw [hdw] at hy ht
      simp only [List.head?_cons] at ht
      rw [collapseAux_false_cons t ts ht] at hy
      simp only [List.head?_cons, Option.mem_def, Option.some_inj] at hy
      rw [hy] at ht
      exact absurd hp.2 (by simp [ht])
  | case6 c d rest hc hd ih =>
    rw [show collapseAux false (c :: d :: rest) = c :: collapseAux false (d :: rest) by
      simp [collapseAux, hc, hd]]
    rw [List.chain'_cons']
    refine ⟨fun y hy hp => ?_, ih⟩
    rw [collapseAux_false_cons d rest (by simpa using hd)] at hy
    simp only [List.head?_cons, Option.mem_def, Option.some_inj] at hy
    rw [hy] at hd
    exact hd hp.2
  | case7 c d rest hc ih =>
    rw [show collapseAux false (c :: d :: rest) = c :: collapseAux false (d :: rest) by
      simp [collapseAux, hc]]
    rw [List.chain'_cons']
    exact ⟨fun y _ hp => hc hp.1, ih⟩

/-- A string with no two adjacent whitespace characters is a fixed point of
the whitespace collapse. -/
theorem collapseAux_fixed (s : Str)
    (h : List.Chain' (fun x y => ¬(isSpace x = true ∧ isSpace y = true)) s) :
    collapseAux false s = s := by
  induction s with
  | nil => rfl
  | cons c rest ih =>
    rcases rest with _ | ⟨d, rest2⟩
    · rfl
    · rw [List.chain'_cons] at h
      by_cases hc : isSpace c = true
      · have hd : isSpace d = false := by
          by_contra hd2
          exact h.1 ⟨hc, by simpa using hd2⟩
        rw [show collapseAux false (c :: d :: rest2) = c :: collapseAux false (d :: rest2)
            by simp [collapseAux, hc, hd]]
        rw [ih h.2]
      · rw [show collapseAux false (c :: d :: rest2) = c :: collapseAux false (d :: rest2)
            by simp [collapseAux, hc]]
        rw [ih h.2]

/-- Idempotence of the whitespace collapse. -/
theorem collapseWs_idem (s : Str) : collapseWs (collapseWs s) = collapseWs s :=
  collapseAux_fixed (collapseAux false s) (collapseAux_chain false s)

/-- Every record the outer scan emits is a sealed `mkRecord`. -/
theorem go_mem_shape (fc : Str) (qid : Nat) (ls : List Str) :
    ∀ r ∈ go fc qid ls, ∃ n h qps bufs, r = mkRecord n fc h qps bufs := by
  induction qid, ls using go.induct fc with
  | case1 qid =>
    intro r hr
    rw [go_nil] at hr
    simp at hr
  | case2 qid ln rest hm ih =>
    intro r hr
    rw [go_cons_none fc qid ln rest hm] at hr
    exact ih r hr
  | case3 qid ln rest h hm ih =>
    intro r hr
    rw [go_cons_some fc qid ln rest h hm] at hr
    rcases List.mem_cons.mp hr with h1 | h2
    · exact ⟨qid, h, _, _, h1⟩
    · exact ih r h2

/-- C2 (amended): at sealing, the whitespace-collapse normalization is
applied to each of the four choice accumulators — every emitted record's four
choice fields are fixed points of `collapseWs` — but it is not applied to the
question accumulator, which is only space-joined and stripped (see the
counterexample, where a double space survives in `question`). -/
theorem claim2_choice_fields_collapsed (lines : List Str) (force_class : Str)
    (r : QuestionRecord) (hr : r ∈ parse_pool lines force_class) :
    collapseWs r.answer_a = r.answer_a ∧ collapseWs r.answer_b = r.answer_b ∧
      collapseWs r.answer_c = r.answer_c ∧ collapseWs r.answer_d = r.answer_d := by
  obtain ⟨n, h, qps, bufs, rfl⟩ := go_mem_shape force_class 1 lines r hr
  exact ⟨collapseWs_idem _, collapseWs_idem _, collapseWs_idem _, collapseWs_idem _⟩

/-- Witness for C2: the choice fields of a concretely parsed record are
collapse-fixed points. -/
theorem claim2_witness :
    collapseWs "x y".toList = "x y".toList ∧ collapseWs ([] : Str) = [] ∧
      collapseWs ([] : Str) = [] ∧ collapseWs ([] : Str) = [] := by
  have h := parse_pool_eval ["E1A01 (A) q".toList, "A. x  y".toList, "~~".toList]
    ['E'] [⟨1, "q".toList, ['E'], '1', 'A', ['0', '1'], 'A', "x y".toList, [], [], []⟩]
    (by decide)
  exact claim2_choice_fields_collapsed _ ['E'] _
    (by rw [h]; exact List.mem_singleton.mpr rfl)

/-- C9 counterexample: the otherwise-branch of `dehyphen_join` is not the
spec's plain space-join `prev + " " + trim(nxt)`: the code strips the whole
result as well, so joining `"a"` with `" "` yields `"a"`, not `"a "`. -/
theorem claim9_counterexample :
    (endsHyphen ['a'] && startsLower [' ']) = false ∧
      dehyphen_join ['a'] [' '] ≠ joinSpecOtherwise ['a'] [' '] := by
  decide

/-- C9 (amended): if the accumulator ends with a hyphen and the new fragment
starts with a lowercase letter, the join is the accumulator minus its
trailing hyphen concatenated directly with the fragment stripped of leading
whitespace; otherwise it is the space-join of the two fragments trimmed at
both ends, `strip (prev ++ " " ++ strip nxt)`; in particular
`join "base-" "ball extra" = "baseball extra"` and
`join "multi-" "Word" = "multi- Word"`. -/
theorem claim9_join_rules (prev nxt : Str) :
    ((endsHyphen prev && startsLower nxt) = true →
        dehyphen_join prev nxt = prev.dropLast ++ lstrip nxt) ∧
      ((endsHyphen prev && startsLower nxt) = false →
        dehyphen_join prev nxt = strip (prev ++ ' ' :: strip nxt)) ∧
      dehyphen_join "base-".toList "ball extra".toList = "baseball extra".toList ∧
      dehyphen_join "multi-".toList "Word".toList = "multi- Word".toList := by
  refine ⟨fun h => ?_, fun h => ?_, by decide, by decide⟩
  · simp [dehyphen_join, h]
  · simp [dehyphen_join, h]

/-- Witness for C9: the hyphen-repair branch fires at a concrete input. -/
theorem claim9_witness :
    (endsHyphen "base-".toList && startsLower "ball".toList) = true ∧
      dehyphen_join "base-".toList "ball".toList =
        ("base-".toList).dropLast ++ lstrip "ball".toList :=
  ⟨by decide, (claim9_join_rules "base-".toList "ball".toList).1 (by decide)⟩

theorem charsOK_sublist {P : Char → Prop} {s t : Str} (hsub : s.Sublist t)
    (h : charsOK P t) : charsOK P s :=
  fun c hc => h c (hsub.subset hc)

theorem charsOK_tail {P : Char → Prop} {c : Char} {s : Str}
    (h : charsOK P (c :: s)) : charsOK P s :=
  fun x hx => h x (List.mem_cons_of_mem c hx)

theorem charsOK_lstrip {P : Char → Prop} {s : Str} (h : charsOK P s) :
    charsOK P (lstrip s) :=
  charsOK_sublist (List.dropWhile_sublist isSpace) h

theorem charsOK_strip {P : Char → Prop} {s : Str} (h : charsOK P s) :
    charsOK P (strip s) :=
  charsOK_sublist (( List.rdropWhile_prefix isSpace (lstrip s)).sublist.trans
    (List.dropWhile_sublist isSpace)) h

theorem charsOK_dehyphen_join {P : Char → Prop} (hsp : P ' ') {prev nxt : Str}
    (hp : charsOK P prev) (hn : charsOK P nxt) :
    charsOK P (dehyphen_join prev nxt) := by
  unfold dehyphen_join
  by_cases hb : (endsHyphen prev && startsLower nxt) = true
  · rw [if_pos hb]
    intro c hc
    rcases List.mem_append.mp hc with h1 | h2
    · exact hp c ((List.dropLast_sublist prev).subset h1)
    · exact charsOK_lstrip hn c h2
  · rw [if_neg hb]
    apply charsOK_strip
    intro c hc
    rcases List.mem_append.mp hc with h1 | h2
    · exact hp c h1
    · rcases List.mem_cons.mp h2 with rfl | h3
      · exact hsp
      · exact charsOK_strip hn c h3

theorem charsOK_collapseAux {P : Char → Prop} (hsp : P ' ') :
    ∀ (b : Bool) (s : Str), charsOK P s → charsOK P (collapseAux b s) := by
  intro b s
  induction b, s using collapseAux.induct with
  | case1 b => intro _; exact fun c hc => by simp [collapseAux] at hc
  | case2 c rest hc ih =>
    intro h
    rw [show collapseAux true (c :: rest) = collapseAux true rest by
      simp [collapseAux, hc]]
    exact ih (charsOK_tail h)
  | case3 c rest hc ih =>
    intro h
    rw [show collapseAux true (c :: rest) = c :: collapseAux false rest by
      simp [collapseAux, hc]]
    intro x hx
    rcases List.mem_cons.mp hx with rfl | h2
    · exact h x (by simp)
    · exact ih (charsOK_tail h) x h2
  | case4 c => intro h; exact h
  | case5 c d rest hc hd ih =>
    intro h
    rw [show collapseAux false (c :: d :: rest) = ' ' :: collapseAux true (d :: rest) by
      simp [collapseAux, hc, hd]]
    intro x hx
    rcases List.mem_cons.mp hx with rfl | h2
    · exact hsp
    · exact ih (charsOK_tail h) x h2
  | case6 c d rest hc hd ih =>
    intro h
    rw [show collapseAux false (c :: d :: rest) = c :: collapseAux false (d :: rest) by
      simp [collapseAux, hc, hd]]
    intro x hx
    rcases List.mem_cons.mp hx with rfl | h2
    · exact h x (by simp)
    · exact ih (charsOK_tail h) x h2
  | case7 c d rest hc ih =>
    intro h
    rw [show collapseAux false (c :: d :: rest) = c :: collapseAux false (d :: rest) by
      simp [collapseAux, hc]]
    intro x hx
    rcases List.mem_cons.mp hx with rfl | h2
    · exact h x (by simp)
    · exact ih (charsOK_tail h) x h2

theorem charsOK_updateLast {P : Char → Prop} {f : Str → Str}
    (hf : ∀ x, charsOK P x → charsOK P (f x)) :
    ∀ (qps : List Str), (∀ p ∈ qps, charsOK P p) →
      ∀ p ∈ updateLast f qps, charsOK P p := by
  intro qps
  induction qps with
  | nil => intro _ p hp; simp [updateLast] at hp
  | cons a rest ih =>
    intro h p hp
    rcases rest with _ | ⟨b, rest2⟩
    · rw [show updateLast f [a] = [f a] from rfl] at hp
      rcases List.mem_singleton.mp hp with rfl
      exact hf a (h a (by simp))
    · rw [show updateLast f (a :: b :: rest2) = a :: updateLast f (b :: rest2)
        from rfl] at hp
      rcases List.mem_cons.mp hp with rfl | h2
      · exact h p (by simp)
      · exact ih (fun x hx => h x (by simp [hx])) p h2

theorem joinSpace_cons2 (p q : Str) (rest : List Str) :
    joinSpace (p :: q :: rest) = p ++ ' ' :: joinSpace (q :: rest) := by
  simp [joinSpace, List.intercalate, List.intersperse]

theorem charsOK_joinSpace {P : Char → Prop} (hsp : P ' ') :
    ∀ (parts : List Str), (∀ p ∈ parts, charsOK P p) →
      charsOK P (joinSpace parts) := by
  intro parts
  induction parts with
  | nil => intro _ c hc; simp [joinSpace, List.intercalate] at hc
  | cons p rest ih =>
    intro h
    rcases rest with _ | ⟨q, rest2⟩
    · intro c hc
      rw [show joinSpace [p] = p by simp [joinSpace, List.intercalate]] at hc
      exact h p (by simp) c hc
    · rw [joinSpace_cons2]
      intro c hc
      rcases List.mem_append.mp hc with h1 | h2
      · exact h p (by simp) c h1
      · rcases List.mem_cons.mp h2 with rfl | h3
        · exact hsp
        · exact ih (fun x hx => h x (by simp [hx])) c h3

theorem charsOK_clean {P : Char → Prop} (hsp : P ' ') {parts : List Str}
    (h : ∀ p ∈ parts, charsOK P p) : charsOK P (clean parts) := by
  unfold clean
  exact charsOK_collapseAux hsp false _
    (charsOK_strip (charsOK_joinSpace hsp _
      (fun p hp => h p (List.mem_of_mem_filter hp))))

theorem afterRBracket_sublist :
    ∀ (s after : Str), afterRBracket s = some after → after.Sublist s := by
  intro s
  induction s with
  | nil => intro after h; simp [afterRBracket] at h
  | cons c rest ih =>
    intro after h
    rw [show afterRBracket (c :: rest) =
        if c = ']' then some rest else afterRBracket rest from rfl] at h
    by_cases hc : c = ']'
    · rw [if_pos hc] at h
      obtain rfl : rest = after := by simpa using h
      exact List.sublist_cons_self c rest
    · rw [if_neg hc] at h
      exact (ih after h).trans (List.sublist_cons_self c rest)

theorem dotStarDollar_sublist {s q : Str} (h : dotStarDollar s = some q) :
    q.Sublist s := by
  unfold dotStarDollar at h
  split at h
  · split at h
    · obtain rfl : s.dropLast = q := by simpa using h
      exact List.dropLast_sublist s
    · simp at h
  · obtain rfl : s = q := by simpa using h
    exact List.Sublist.refl s

theorem headerTail_sublist {t q : Str} (h : headerTail t = some q) :
    q.Sublist t := by
  have hu : (lstrip t).Sublist t := List.dropWhile_sublist isSpace
  unfold headerTail at h
  split at h
  case h_1 rest heq =>
    rw [heq] at hu
    rcases har : afterRBracket rest with _ | after
    · simp only [har, Option.none_orElse] at h
      exact (dotStarDollar_sublist h).trans hu
    · simp only [har] at h
      rcases hds : dotStarDollar (lstrip after) with _ | q1
      · simp only [hds, Option.none_orElse] at h
        exact (dotStarDollar_sublist h).trans hu
      · simp only [hds, Option.some_orElse, Option.some_inj] at h
        have h1 : q1.Sublist after :=
          (dotStarDollar_sublist hds).trans (List.dropWhile_sublist isSpace)
        rw [← h]
        exact ((h1.trans (afterRBracket_sublist rest after har)).trans
          (List.sublist_cons_self '[' rest)).trans hu
  case h_2 u heq =>
    exact (dotStarDollar_sublist h).trans hu

theorem headerMatch_qstart_sublist {l : Str} {h : HeaderMatch}
    (hm : headerMatch l = some h) : h.qstart.Sublist l := by
  have hu : (lstrip l).Sublist l := List.dropWhile_sublist isSpace
  unfold headerMatch at hm
  split at hm
  case h_2 => exact absurd hm (by simp)
  case h_1 d g n1 n2 rest heq =>
    rw [heq] at hu
    split at hm
    case isFalse => exact absurd hm (by simp)
    case isTrue =>
      split at hm
      case h_2 => exact absurd hm (by simp)
      case h_1 a r3 heq2 =>
        split at hm
        case isFalse => exact absurd hm (by simp)
        case isTrue =>
          split at hm
          case h_2 => exact absurd hm (by simp)
          case h_1 q heq3 =>
            obtain rfl : (⟨d, g, [n1, n2], a, q⟩ : HeaderMatch) = h := by
              simpa using hm
            have h1 : q.Sublist r3 := headerTail_sublist heq3
            have h2 : r3.Sublist (rest.dropWhile isSpace) := by
              rw [heq2]
              exact ((List.sublist_cons_self ')' r3).trans
                (List.sublist_cons_self a (')' :: r3))).trans
                (List.sublist_cons_self '(' (a :: ')' :: r3))
            have h3 : rest.Sublist ('E' :: d :: g :: n1 :: n2 :: rest) :=
              ((((List.sublist_cons_self n2 rest).trans
                (List.sublist_cons_self n1 (n2 :: rest))).trans
                (List.sublist_cons_self g (n1 :: n2 :: rest))).trans
                (List.sublist_cons_self d (g :: n1 :: n2 :: rest))).trans
                (List.sublist_cons_self 'E' (d :: g :: n1 :: n2 :: rest))
            exact ((((h1.trans h2).trans
              (List.dropWhile_sublist isSpace)).trans h3).trans hu)

theorem choiceMatch_core_sublist {l : Str} {c : Char} {core : Str}
    (hm : choiceMatch l = some (c, core)) : core.Sublist l := by
  have hu : (lstrip l).Sublist l := List.dropWhile_sublist isSpace
  unfold choiceMatch at hm
  split at hm
  case h_2 => exact absurd hm (by simp)
  case h_1 c2 t heq =>
    rw [heq] at hu
    split at hm
    case isFalse => exact absurd hm (by simp)
    case isTrue =>
      split at hm
      case isTrue => exact absurd hm (by simp)
      case isFalse =>
        obtain ⟨rfl, rfl⟩ : c2 = c ∧ strip t = core := by simpa using hm
        have h1 : (strip t).Sublist t :=
          ( List.rdropWhile_prefix isSpace (lstrip t)).sublist.trans
            (List.dropWhile_sublist isSpace)
        exact ((h1.trans (List.sublist_cons_self '.' t)).trans
          (List.sublist_cons_self c2 ('.' :: t))).trans hu

theorem qloop_snd_suffix (qps ls : List Str) : (qloop qps ls).2 <:+ ls := by
  induction ls generalizing qps with
  | nil => rw [qloop_nil]
  | cons ln rest ih =>
    rw [qloop_cons]
    by_cases hb :
        (sepMatch ln || (headerMatch ln).isSome || (choiceMatch ln).isSome) = true
    · rw [if_pos hb]
    · rw [if_neg hb]
      exact (ih _).trans (List.suffix_cons ln rest)

theorem cloop_snd_suffix (ls : List Str) :
    ∀ (bufs : ChoiceBufs) (current : Option Char),
      (cloop bufs current ls).2 <:+ ls := by
  induction ls with
  | nil => intro bufs current; rw [cloop_nil]
  | cons ln rest ih =>
    intro bufs current
    rw [cloop_cons]
    by_cases hb : (sepMatch ln || (headerMatch ln).isSome) = true
    · rw [if_pos hb]
    · rw [if_neg hb]
      exact (ih _ _).trans (List.suffix_cons ln rest)

theorem dropSep_suffix (ls : List Str) : dropSep ls <:+ ls := by
  rcases ls with _ | ⟨l, t⟩
  · exact List.suffix_refl []
  · by_cases hs : sepMatch l = true
    · rw [show dropSep (l :: t) = t by simp [dropSep, hs]]
      exact List.suffix_cons l t
    · rw [show dropSep (l :: t) = l :: t by simp [dropSep, hs]]

theorem bufsOK_get {P : Char → Prop} {bufs : ChoiceBufs} (h : bufsOK P bufs)
    (letter : Char) : ∀ p ∈ bufs.get letter, charsOK P p := by
  unfold ChoiceBufs.get
  obtain ⟨h1, h2, h3, h4⟩ := h
  split_ifs
  · exact h1
  · exact h2
  · exact h3
  · exact h4

theorem bufsOK_set {P : Char → Prop} {bufs : ChoiceBufs} (h : bufsOK P bufs)
    (letter : Char) {v : List Str} (hv : ∀ p ∈ v, charsOK P p) :
    bufsOK P (bufs.set letter v) := by
  unfold ChoiceBufs.set
  obtain ⟨h1, h2, h3, h4⟩ := h
  split_ifs
  · exact ⟨hv, h2, h3, h4⟩
  · exact ⟨h1, hv, h3, h4⟩
  · exact ⟨h1, h2, hv, h4⟩
  · exact ⟨h1, h2, h3, hv⟩

theorem cstep_bufsOK {P : Char → Prop} (hsp : P ' ') {bufs : ChoiceBufs}
    {current : Option Char} {ln : Str} (hb : bufsOK P bufs)
    (hln : charsOK P ln) : bufsOK P (cstep bufs current ln).1 := by
  unfold cstep
  rcases hc : choiceMatch ln with _ | ⟨letter, firstText⟩
  · rcases current with _ | letter
    · exact hb
    · dsimp only
      by_cases hse : (strip ln).isEmpty = true
      · rw [if_pos hse]
        exact hb
      · rw [if_neg hse]
        by_cases hge : (bufs.get letter).isEmpty = true
        · rw [if_pos hge]
          exact bufsOK_set hb letter (fun p hp => by
            rcases List.mem_singleton.mp hp with rfl
            exact charsOK_strip hln)
        · rw [if_neg hge]
          exact bufsOK_set hb letter
            (charsOK_updateLast
              (fun x hx => charsOK_dehyphen_join hsp hx (charsOK_strip hln))
              (bufs.get letter) (bufsOK_get hb letter))
  · dsimp only
    by_cases hfe : firstText.isEmpty = true
    · rw [if_pos hfe]
      exact hb
    · rw [if_neg hfe]
      have hft : charsOK P firstText :=
        charsOK_sublist (choiceMatch_core_sublist hc) hln
      exact bufsOK_set hb letter (fun p hp => by
        rcases List.mem_append.mp hp with h1 | h2
        · exact bufsOK_get hb letter p h1
        · rcases List.mem_singleton.mp h2 with rfl
          exact hft)

theorem cloop_fst_bufsOK {P : Char → Prop} (hsp : P ' ') :
    ∀ (ls : List Str) (bufs : ChoiceBufs) (current : Option Char),
      bufsOK P bufs → (∀ l ∈ ls, charsOK P l) →
      bufsOK P (cloop bufs current ls).1 := by
  intro ls
  induction ls with
  | nil =>
    intro bufs current hb _
    rw [cloop_nil]
    exact hb
  | cons ln rest ih =>
    intro bufs current hb hl
    rw [cloop_cons]
    by_cases hbr : (sepMatch ln || (headerMatch ln).isSome) = true
    · rw [if_pos hbr]
      exact hb
    · rw [if_neg hbr]
      exact ih _ _ (cstep_bufsOK hsp hb (hl ln (by simp)))
        (fun l h2 => hl l (by simp [h2]))

theorem qloop_fst_charsOK {P : Char → Prop} (hsp : P ' ') :
    ∀ (ls : List Str) (qps : List Str), (∀ p ∈ qps, charsOK P p) →
      (∀ l ∈ ls, charsOK P l) → ∀ p ∈ (qloop qps ls).1, charsOK P p := by
  intro ls
  induction ls with
  | nil =>
    intro qps hq _
    rw [qloop_nil]
    exact hq
  | cons ln rest ih =>
    intro qps hq hl
    rw [qloop_cons]
    by_cases hb :
        (sepMatch ln || (headerMatch ln).isSome || (choiceMatch ln).isSome) = true
    · rw [if_pos hb]
      exact hq
    · rw [if_neg hb]
      have hln : charsOK P ln := hl ln (by simp)
      have hrest : ∀ l ∈ rest, charsOK P l := fun l h2 => hl l (by simp [h2])
      by_cases hse : (strip ln).isEmpty = true
      · rw [if_pos hse]
        exact ih _ hq hrest
      · rw [if_neg hse]
        by_cases hqe : qps.isEmpty = true
        · rw [if_pos hqe]
          exact ih _ (fun p hp => by
            rcases List.mem_singleton.mp hp with rfl
            exact charsOK_strip hln) hrest
        · rw [if_neg hqe]
          exact ih _
            (charsOK_updateLast
              (fun x hx => charsOK_dehyphen_join hsp hx (charsOK_strip hln))
              qps hq) hrest

/-- Character provenance through the whole scan: if `P` holds of the space
character and of every character of every input line, it holds of every
character of the text fields of every emitted record. -/
theorem go_charsOK (P : Char → Prop) (hsp : P ' ') (fc : Str) (qid : Nat)
    (ls : List Str) :
    (∀ l ∈ ls, charsOK P l) → ∀ r ∈ go fc qid ls,
      charsOK P r.question ∧ charsOK P r.answer_a ∧ charsOK P r.answer_b ∧
        charsOK P r.answer_c ∧ charsOK P r.answer_d := by
  induction qid, ls using go.induct fc with
  | case1 qid =>
    intro _ r hr
    rw [go_nil] at hr
    simp at hr
  | case2 qid ln rest hm ih =>
    intro hl r hr
    rw [go_cons_none fc qid ln rest hm] at hr
    exact ih (fun l h2 => hl l (by simp [h2])) r hr
  | case3 qid ln rest h hm ih =>
    intro hl r hr
    rw [go_cons_some fc qid ln rest h hm] at hr
    have hln : charsOK P ln := hl ln (by simp)
    have hrest : ∀ l ∈ rest, charsOK P l := fun l h2 => hl l (by simp [h2])
    have hq2 : ∀ l ∈ (qloop (initQ h.qstart) rest).2, charsOK P l :=
      fun l h2 => hrest l ((qloop_snd_suffix (initQ h.qstart) rest).sublist.subset h2)
    have hc2 : ∀ l ∈ (cloop initBufs none (qloop (initQ h.qstart) rest).2).2,
        charsOK P l :=
      fun l h2 => hq2 l
        ((cloop_snd_suffix (qloop (initQ h.qstart) rest).2 initBufs none).sublist.subset h2)
    have hinit : ∀ p ∈ initQ h.qstart, charsOK P p := by
      intro p hp
      unfold initQ at hp
      split at hp
      · simp at hp
      · rcases List.mem_singleton.mp hp with rfl
        exact charsOK_strip
          (charsOK_sublist (headerMatch_qstart_sublist hm) hln)
    have hbufs : bufsOK P (cloop initBufs none (qloop (initQ h.qstart) rest).2).1 :=
      cloop_fst_bufsOK hsp _ initBufs none
        ⟨by simp [initBufs], by simp [initBufs], by simp [initBufs], by simp [initBufs]⟩
        hq2
    rcases List.mem_cons.mp hr with rfl | h2
    · refine ⟨?_, ?_, ?_, ?_, ?_⟩
      · exact charsOK_strip (charsOK_joinSpace hsp _
          (qloop_fst_charsOK hsp rest (initQ h.qstart) hinit hrest))
      · exact charsOK_clean hsp hbufs.1
      · exact charsOK_clean hsp hbufs.2.1
      · exact charsOK_clean hsp hbufs.2.2.1
      · exact charsOK_clean hsp hbufs.2.2.2
    · exact ih (fun l h3 => hc2 l
        ((dropSep_suffix _).sublist.subset h3)) r h2

/-- C8 (amended): when no input line contains a raw line-break character, the
`question` and all four choice-text fields of every emitted record contain no
raw line-break; for fully arbitrary input strings the property fails (see the
counterexample, where an embedded newline in a plain line survives). -/
theorem claim8_no_newline (lines : List Str) (force_class : Str)
    (hl : ∀ l ∈ lines, '\n' ∉ l) (r : QuestionRecord)
    (hr : r ∈ parse_pool lines force_class) :
    '\n' ∉ r.question ∧ '\n' ∉ r.answer_a ∧ '\n' ∉ r.answer_b ∧
      '\n' ∉ r.answer_c ∧ '\n' ∉ r.answer_d := by
  have hs := go_charsOK (fun c => c ≠ '\n') (by decide) force_class 1 lines
    (fun l hm c hc he => hl l hm (he ▸ hc)) r hr
  exact ⟨fun hmem => hs.1 '\n' hmem rfl, fun hmem => hs.2.1 '\n' hmem rfl,
    fun hmem => hs.2.2.1 '\n' hmem rfl, fun hmem => hs.2.2.2.1 '\n' hmem rfl,
    fun hmem => hs.2.2.2.2 '\n' hmem rfl⟩

/-- Witness for C8: a concrete newline-free input yields newline-free fields. -/
theorem claim8_witness :
    (∀ l ∈ [("E1A01 (A) q".toList : Str), "A. x".toList, "~~".toList], '\n' ∉ l) ∧
      ('\n' ∉ ("q".toList : Str) ∧ '\n' ∉ ("x".toList : Str) ∧
        '\n' ∉ ([] : Str) ∧ '\n' ∉ ([] : Str) ∧ '\n' ∉ ([] : Str)) := by
  have h := parse_pool_eval ["E1A01 (A) q".toList, "A. x".toList, "~~".toList] ['E']
    [⟨1, "q".toList, ['E'], '1', 'A', ['0', '1'], 'A', "x".toList, [], [], []⟩]
    (by decide)
  refine ⟨by decide, ?_⟩
  exact claim8_no_newline ["E1A01 (A) q".toList, "A. x".toList, "~~".toList] ['E']
    (by decide) ⟨1, "q".toList, ['E'], '1', 'A', ['0', '1'], 'A', "x".toList, [], [], []⟩
    (by rw [h]; exact List.mem_singleton.mpr rfl)

end PoolParse
